import Mathlib

/-!
Verification development for the DNSASM wire-format codec
(`src/dnsasm/src/dnsasm.c`, `src/dnsasm/include/dnsasm.h`).

The C code is shallowly embedded: packets are lists of byte values
(`List Nat`, each entry the value of one `uint8_t`), the packet length is
passed separately exactly as the C `size_t len` parameter, machine-integer
casts are modelled with explicit `% 2^16` / `% 2^32`, and the
`dnsasm_result_t` tagged result together with the out-parameter writes are
made explicit in the return types.  The decompression `while` loop is
embedded with an explicit fuel parameter; fuel `384` strictly exceeds the
loop's iteration bound `(255 - out_pos) + (128 - ptr_count) + 1`, and the
development proves the loop never exhausts it.
-/

set_option maxRecDepth 16384

/-- Error codes of `dnsasm.h` (`DNSASM_ERR_SHORT/_NAME/_POINTER/_LOOP/_OVERFLOW`). -/
inductive DnsError where
  | short
  | name
  | pointer
  | loop
  | overflow
deriving DecidableEq, Repr

/-- The `dnsasm_result_t` struct: `error = 0` with an `offset` payload on
success, or a negative error code (the `offset` field is then left `0`). -/
inductive DecodeRes where
  | ok (offset : Nat) : DecodeRes
  | err (e : DnsError) : DecodeRes
deriving DecidableEq, Repr

/-- `packet[i]`: byte read from the packet buffer.  Out-of-list reads
default to 0 (the C contract is that the buffer holds `len` readable
bytes; every modelled read is guarded by the same bounds checks as the
source, so the default is never observable on an in-contract call). -/
def byteAt (packet : List Nat) (i : Nat) : Nat :=
  packet.getD i 0

/-- The `label_len` bytes `packet[s .. s+n-1]` copied by
`memcpy(out + out_pos, packet + pos + 1, label_len)`. -/
def labelSlice (packet : List Nat) (s n : Nat) : List Nat :=
  (List.range n).map fun i => byteAt packet (s + i)

/-- Big-endian 16-bit read: `bswap16(*(const uint16_t *)(packet + i))`. -/
def be16 (packet : List Nat) (i : Nat) : Nat :=
  byteAt packet i * 256 + byteAt packet (i + 1)

/-- Big-endian 32-bit read: `bswap32(*(const uint32_t *)(packet + i))`. -/
def be32 (packet : List Nat) (i : Nat) : Nat :=
  byteAt packet i * 16777216 + byteAt packet (i + 1) * 65536 +
    byteAt packet (i + 2) * 256 + byteAt packet (i + 3)

/-- Outcome of `dnsasm_decompress_name`:
* `written`  — the bytes stored into the caller's `out` buffer, in order,
  at indices `0, 1, …, written.length - 1` (the function only ever writes
  at `out[out_pos++]`, so the write set is exactly this prefix);
* `out_len`  — `some v` iff the function stored `v` through the `out_len`
  out-parameter (it does so only on the success path);
* `res`      — the returned `dnsasm_result_t`. -/
structure NameResult where
  written : List Nat
  out_len : Option Nat
  res : DecodeRes
deriving DecidableEq, Repr

/-- The 14-bit pointer target
`((label_len & 0x3F) << 8) | packet[pos + 1]`. -/
def ptrVal (packet : List Nat) (pos : Nat) : Nat :=
  ((byteAt packet pos &&& 63) <<< 8) ||| byteAt packet (pos + 1)

/-- The `while (pos < len)` loop of `dnsasm_decompress_name`, with state
`pos` (cursor), `acc` (bytes written so far, `out_pos = acc.length`),
`wire` (`wire_len`), `cw` (`counting_wire`), `pc` (`ptr_count`), and an
explicit fuel.  `none` means the fuel ran out (proved unreachable for
fuel ≥ 384). -/
def decompressLoop (packet : List Nat) (len : Nat) :
    Nat → Nat → List Nat → Nat → Bool → Nat → Option NameResult
  | 0, _, _, _, _, _ => none
  | fuel + 1, pos, acc, wire, cw, pc =>
    if pos < len then
      let labelLen := byteAt packet pos
      if labelLen &&& 192 = 192 then
        -- compression pointer
        if pos + 1 ≥ len then some ⟨acc, none, .err .short⟩
        else
          let ptr := ptrVal packet pos
          let wire' := if cw then wire + 2 else wire
          if pc + 1 > 127 then some ⟨acc, none, .err .loop⟩
          else if ptr ≥ pos then some ⟨acc, none, .err .pointer⟩
          else decompressLoop packet len fuel ptr acc wire' false (pc + 1)
      else if labelLen = 0 then
        -- end of name: out[out_pos++] = 0, wire_len++ if counting, break
        some ⟨acc ++ [0], some ((acc.length + 1) % 65536),
          .ok ((if cw then wire + 1 else wire) % 4294967296)⟩
      else if labelLen > 63 then some ⟨acc, none, .err .name⟩
      else if pos + 1 + labelLen > len then some ⟨acc, none, .err .short⟩
      else if acc.length + 1 + labelLen > 255 then some ⟨acc, none, .err .overflow⟩
      else
        decompressLoop packet len fuel (pos + 1 + labelLen)
          (acc ++ labelLen :: labelSlice packet (pos + 1) labelLen)
          (if cw then wire + 1 + labelLen else wire) cw pc
    else
      -- loop guard fails: fall through to the success epilogue
      some ⟨acc, some (acc.length % 65536), .ok (wire % 4294967296)⟩

/-- `dnsasm_decompress_name(packet, len, offset, out, out_len)`. -/
def dnsasm_decompress_name (packet : List Nat) (len offset : Nat) : Option NameResult :=
  decompressLoop packet len 384 offset [] 0 true 0

example : dnsasm_decompress_name [3, 119, 119, 119, 0] 5 0 =
    some ⟨[3, 119, 119, 119, 0], some 5, .ok 5⟩ := by decide

example : dnsasm_decompress_name [] 0 0 = some ⟨[], some 0, .ok 0⟩ := by decide

example : dnsasm_decompress_name [192, 0] 2 0 = some ⟨[], none, .err .pointer⟩ := by
  decide

/-- Parsed `dnsasm_header_t`: six raw fields plus the derived flag bits. -/
structure HeaderT where
  id : Nat
  flags : Nat
  qdcount : Nat
  ancount : Nat
  nscount : Nat
  arcount : Nat
  qr : Nat
  opcode : Nat
  aa : Nat
  tc : Nat
  rd : Nat
  ra : Nat
  rcode : Nat
deriving DecidableEq, Repr

/-- `dnsasm_parse_header(packet, len, out)`: `none` models the
`DNSASM_ERR_SHORT` return (the only error of this function). -/
def dnsasm_parse_header (packet : List Nat) (len : Nat) : Option HeaderT :=
  if len < 12 then none
  else
    let flags := be16 packet 2
    some
      { id := be16 packet 0
        flags := flags
        qdcount := be16 packet 4
        ancount := be16 packet 6
        nscount := be16 packet 8
        arcount := be16 packet 10
        qr := (flags >>> 15) &&& 1
        opcode := (flags >>> 11) &&& 15
        aa := (flags >>> 10) &&& 1
        tc := (flags >>> 9) &&& 1
        rd := (flags >>> 8) &&& 1
        ra := (flags >>> 7) &&& 1
        rcode := flags &&& 15 }

/-- `dnsasm_build_header(out, id, flags, qd, an, ns, ar)`: six
`bswap16` stores in order, i.e. the big-endian bytes of each 16-bit
argument (`% 65536` models the `uint16_t` parameter types). -/
def dnsasm_build_header (id flags qdcount ancount nscount arcount : Nat) : List Nat :=
  [id % 65536 / 256, id % 256,
   flags % 65536 / 256, flags % 256,
   qdcount % 65536 / 256, qdcount % 256,
   ancount % 65536 / 256, ancount % 256,
   nscount % 65536 / 256, nscount % 256,
   arcount % 65536 / 256, arcount % 256]

/-- `dnsasm_question_t`: `name` holds the contents of the 256-byte
(`DNS_MAX_NAME_LEN + 1`) name buffer. -/
structure QuestionT where
  name : List Nat
  name_len : Nat
  qtype : Nat
  qclass : Nat
  wire_len : Nat
deriving DecidableEq, Repr

/-- Overwrite the prefix of buffer `buf` with `data` (the effect of the
sequential `out[out_pos++] = …` stores of the decompressor on the
caller's name buffer). -/
def writeBytes (buf data : List Nat) : List Nat :=
  data ++ buf.drop data.length

/-- `dnsasm_parse_question(packet, len, offset, out)`.  The struct is
passed in and returned to make the out-parameter writes explicit: the
name buffer receives whatever bytes the decompressor wrote, `name_len`
is stored only when the decompressor succeeded, and `qtype`/`qclass`/
`wire_len` are stored only when the 4-byte trailer check also passed. -/
def dnsasm_parse_question (packet : List Nat) (len offset : Nat) (q : QuestionT) :
    Option (QuestionT × DecodeRes) :=
  match dnsasm_decompress_name packet len offset with
  | none => none
  | some nr =>
    let q1 : QuestionT :=
      { q with name := writeBytes q.name nr.written,
               name_len := nr.out_len.getD q.name_len }
    match nr.res with
    | .err e => some (q1, .err e)
    | .ok wire =>
      let pos := offset + wire
      if pos + 4 > len then some (q1, .err .short)
      else
        some ({ q1 with qtype := be16 packet pos,
                        qclass := be16 packet (pos + 2),
                        wire_len := (wire + 4) % 65536 },
              .ok ((pos + 4) % 4294967296))

/-- `dnsasm_rr_t`: as with `QuestionT`, `name` is the 256-byte name
buffer; the borrowed `rdata` pointer `packet + pos` is modelled as the
offset `rdata_off` into the packet. -/
structure RRT where
  name : List Nat
  name_len : Nat
  rtype : Nat
  rclass : Nat
  ttl : Nat
  rdlength : Nat
  rdata_off : Nat
  wire_len : Nat
deriving DecidableEq, Repr

/-- `dnsasm_parse_rr(packet, len, offset, out)`.  Mirrors the source
order: the four fixed fields are stored before the rdata bounds check,
while `rdata` and `wire_len` are stored only on full success; `wire_len`
is a `uint16_t`, hence the `% 65536`. -/
def dnsasm_parse_rr (packet : List Nat) (len offset : Nat) (r : RRT) :
    Option (RRT × DecodeRes) :=
  match dnsasm_decompress_name packet len offset with
  | none => none
  | some nr =>
    let r1 : RRT :=
      { r with name := writeBytes r.name nr.written,
               name_len := nr.out_len.getD r.name_len }
    match nr.res with
    | .err e => some (r1, .err e)
    | .ok wire =>
      let pos := offset + wire
      if pos + 10 > len then some (r1, .err .short)
      else
        let r2 : RRT :=
          { r1 with rtype := be16 packet pos,
                    rclass := be16 packet (pos + 2),
                    ttl := be32 packet (pos + 4),
                    rdlength := be16 packet (pos + 8) }
        if pos + 10 + r2.rdlength > len then some (r2, .err .short)
        else
          some ({ r2 with rdata_off := pos + 10,
                          wire_len := (wire + 10 + r2.rdlength) % 65536 },
                .ok ((pos + 10 + r2.rdlength) % 4294967296))

/-- The per-byte case fold of `dnsasm_name_equal`:
`if (c >= 'A' && c <= 'Z') c += 32`. -/
def foldCase (c : Nat) : Nat :=
  if 65 ≤ c ∧ c ≤ 90 then c + 32 else c

/-- The comparison loop of `dnsasm_name_equal`, reached only when the
lengths agree (so the two lists are consumed in lockstep). -/
def nameEqLoop : List Nat → List Nat → Nat
  | a :: as', b :: bs' =>
    if foldCase a ≠ foldCase b then 1 else nameEqLoop as' bs'
  | _, _ => 0

/-- `dnsasm_name_equal(a, a_len, b, b_len)`: returns `0` for equal,
`1` for not equal. -/
def dnsasm_name_equal (a b : List Nat) : Nat :=
  if a.length ≠ b.length then 1 else nameEqLoop a b

example : dnsasm_name_equal [3, 87, 87, 87] [3, 119, 119, 119] = 0 := by decide
example : dnsasm_name_equal [3, 87, 87, 87] [3, 119, 119] = 1 := by decide
example : dnsasm_parse_header (dnsasm_build_header 4660 256 1 0 0 0) 12 =
    some ⟨4660, 256, 1, 0, 0, 0, 0, 0, 0, 0, 1, 0, 0⟩ := by decide

/-- Wire length of a list of labels: `1 + label.length` bytes each
(a length byte followed by the label bytes). -/
def encLen (ls : List (List Nat)) : Nat :=
  (ls.map fun l => 1 + l.length).sum

/-- The bytes the decompressor emits for a list of labels: each label is
copied as its length byte followed by its bytes. -/
def nameBytes (ls : List (List Nat)) : List Nat :=
  (ls.map fun l => l.length :: l).flatten

/-- `encodesLabels packet len pos ls`: starting at `pos` the packet holds
exactly the labels `ls`, each of length 1..63, each fully inside `len`. -/
def encodesLabels (packet : List Nat) (len : Nat) : Nat → List (List Nat) → Prop
  | _, [] => True
  | pos, l :: ls =>
    1 ≤ l.length ∧ l.length ≤ 63 ∧ byteAt packet pos = l.length ∧
    pos + 1 + l.length ≤ len ∧ labelSlice packet (pos + 1) l.length = l ∧
    encodesLabels packet len (pos + 1 + l.length) ls

/-- A packet holding a root label at offset 0 followed by `n` chained
compression pointers: pointer `k` sits at offset `2k - 1` and targets
pointer `k - 1` (offset `2k - 3`), the first pointer targets the root
label.  Decoding from the last pointer follows exactly `n` hops. -/
def chainPacket : Nat → List Nat
  | 0 => [0]
  | n + 1 => chainPacket n ++ [192, if n = 0 then 0 else 2 * n - 1]

/-- A name of four labels filling exactly 255 output bytes
(63+63+63+62 label bytes plus their four length bytes), then the root
terminator: its decompressed form is 256 bytes counting the final zero. -/
def overlongPacket : List Nat :=
  63 :: List.replicate 63 97 ++
    (63 :: List.replicate 63 97 ++
      (63 :: List.replicate 63 97 ++
        (62 :: List.replicate 62 97 ++ [0])))

/-- An all-zero `dnsasm_question_t` (256-byte name buffer zeroed). -/
def zeroQuestion : QuestionT :=
  ⟨List.replicate 256 0, 0, 0, 0, 0⟩

/-- An all-zero `dnsasm_rr_t`. -/
def zeroRR : RRT :=
  ⟨List.replicate 256 0, 0, 0, 0, 0, 0, 0, 0⟩

/-- A 65546-byte buffer: root name, A/IN fixed fields, rdlength 0xFFFF,
then 65535 rdata bytes.  Exercises the 16-bit truncation of the RR
`wire_len` field (1 + 10 + 65535 = 65546 wraps to 10). -/
def hugePacket : List Nat :=
  [0, 0, 1, 0, 1, 0, 0, 0, 0, 255, 255] ++ List.replicate 65535 0

/-- The question struct after `dnsasm_parse_question` fails with
`DNSASM_ERR_NAME` on `[1, 65, 64]`: the first label (length byte and
`A`) has already been copied into the name buffer. -/
def partialQuestion : QuestionT :=
  ⟨1 :: 65 :: List.replicate 254 0, 0, 0, 0, 0⟩

lemma labelSlice_length (packet : List Nat) (s n : Nat) :
    (labelSlice packet s n).length = n := by
  simp [labelSlice]

/-- Fuel sufficiency: every loop iteration either appends at least two
output bytes (a label step, guarded by the 255-byte overflow check) or
increments the hop counter (a pointer step, guarded by the 127-hop
check), so `(255 - out_pos) + (128 - ptr_count)` strictly decreases and
the loop finishes within any fuel exceeding it. -/
lemma decompressLoop_isSome (packet : List Nat) (len : Nat) :
    ∀ fuel pos acc wire cw pc, 255 - acc.length + (128 - pc) < fuel →
      (decompressLoop packet len fuel pos acc wire cw pc).isSome := by
  intro fuel
  induction fuel with
  | zero => intro pos acc wire cw pc h; omega
  | succ n ih =>
    intro pos acc wire cw pc h
    simp only [decompressLoop]
    split_ifs <;>
      first
        | simp
        | (refine ih _ _ _ _ _ ?_
           try simp only [List.length_append, List.length_cons, labelSlice_length]
           omega)

section StepLemmas

variable {packet : List Nat} {len n pos wire pc : Nat} {acc : List Nat} {cw : Bool}

/-- Loop guard fails (`pos ≥ len`): the loop exits and the function
falls through to the success epilogue. -/
lemma loop_exit (h1 : ¬ pos < len) :
    decompressLoop packet len (n + 1) pos acc wire cw pc =
      some ⟨acc, some (acc.length % 65536), .ok (wire % 4294967296)⟩ := by
  simp only [decompressLoop, if_neg h1]

/-- Pointer byte at the last position of the buffer: `DNSASM_ERR_SHORT`. -/
lemma loop_ptr_short (h1 : pos < len) (h2 : byteAt packet pos &&& 192 = 192)
    (h3 : pos + 1 ≥ len) :
    decompressLoop packet len (n + 1) pos acc wire cw pc =
      some ⟨acc, none, .err .short⟩ := by
  simp only [decompressLoop, if_pos h1, if_pos h2, if_pos h3]

/-- Hop counter exceeds 127: `DNSASM_ERR_LOOP`. -/
lemma loop_ptr_loop (h1 : pos < len) (h2 : byteAt packet pos &&& 192 = 192)
    (h3 : ¬ pos + 1 ≥ len) (h4 : pc + 1 > 127) :
    decompressLoop packet len (n + 1) pos acc wire cw pc =
      some ⟨acc, none, .err .loop⟩ := by
  simp only [decompressLoop, if_pos h1, if_pos h2, if_neg h3, if_pos h4]

/-- Pointer target not strictly backward: `DNSASM_ERR_POINTER`. -/
lemma loop_ptr_invalid (h1 : pos < len) (h2 : byteAt packet pos &&& 192 = 192)
    (h3 : ¬ pos + 1 ≥ len) (h4 : ¬ pc + 1 > 127) (h5 : ptrVal packet pos ≥ pos) :
    decompressLoop packet len (n + 1) pos acc wire cw pc =
      some ⟨acc, none, .err .pointer⟩ := by
  simp only [decompressLoop, if_pos h1, if_pos h2, if_neg h3, if_neg h4, if_pos h5]

/-- Valid backward pointer: hop to the target, freeze wire counting. -/
lemma loop_ptr_step (h1 : pos < len) (h2 : byteAt packet pos &&& 192 = 192)
    (h3 : ¬ pos + 1 ≥ len) (h4 : ¬ pc + 1 > 127) (h5 : ¬ ptrVal packet pos ≥ pos) :
    decompressLoop packet len (n + 1) pos acc wire cw pc =
      decompressLoop packet len n (ptrVal packet pos) acc
        (if cw then wire + 2 else wire) false (pc + 1) := by
  simp only [decompressLoop, if_pos h1, if_pos h2, if_neg h3, if_neg h4, if_neg h5]

/-- Zero length byte: append the terminator and succeed. -/
lemma loop_term (h1 : pos < len) (h2 : ¬ byteAt packet pos &&& 192 = 192)
    (h3 : byteAt packet pos = 0) :
    decompressLoop packet len (n + 1) pos acc wire cw pc =
      some ⟨acc ++ [0], some ((acc.length + 1) % 65536),
        .ok ((if cw then wire + 1 else wire) % 4294967296)⟩ := by
  simp only [decompressLoop, if_pos h1, if_neg h2, if_pos h3]

/-- Label length byte above 63: `DNSASM_ERR_NAME`. -/
lemma loop_name_err (h1 : pos < len) (h2 : ¬ byteAt packet pos &&& 192 = 192)
    (h3 : ¬ byteAt packet pos = 0) (h4 : byteAt packet pos > 63) :
    decompressLoop packet len (n + 1) pos acc wire cw pc =
      some ⟨acc, none, .err .name⟩ := by
  simp only [decompressLoop, if_pos h1, if_neg h2, if_neg h3, if_pos h4]

/-- Label extends past the end of the buffer: `DNSASM_ERR_SHORT`. -/
lemma loop_label_short (h1 : pos < len) (h2 : ¬ byteAt packet pos &&& 192 = 192)
    (h3 : ¬ byteAt packet pos = 0) (h4 : ¬ byteAt packet pos > 63)
    (h5 : pos + 1 + byteAt packet pos > len) :
    decompressLoop packet len (n + 1) pos acc wire cw pc =
      some ⟨acc, none, .err .short⟩ := by
  simp only [decompressLoop, if_pos h1, if_neg h2, if_neg h3, if_neg h4, if_pos h5]

/-- Label does not fit in the 255-byte output: `DNSASM_ERR_OVERFLOW`. -/
lemma loop_overflow (h1 : pos < len) (h2 : ¬ byteAt packet pos &&& 192 = 192)
    (h3 : ¬ byteAt packet pos = 0) (h4 : ¬ byteAt packet pos > 63)
    (h5 : ¬ pos + 1 + byteAt packet pos > len)
    (h6 : acc.length + 1 + byteAt packet pos > 255) :
    decompressLoop packet len (n + 1) pos acc wire cw pc =
      some ⟨acc, none, .err .overflow⟩ := by
  simp only [decompressLoop, if_pos h1, if_neg h2, if_neg h3, if_neg h4, if_neg h5,
    if_pos h6]

/-- Regular label: copy the length byte and the label bytes. -/
lemma loop_label_step (h1 : pos < len) (h2 : ¬ byteAt packet pos &&& 192 = 192)
    (h3 : ¬ byteAt packet pos = 0) (h4 : ¬ byteAt packet pos > 63)
    (h5 : ¬ pos + 1 + byteAt packet pos > len)
    (h6 : ¬ acc.length + 1 + byteAt packet pos > 255) :
    decompressLoop packet len (n + 1) pos acc wire cw pc =
      decompressLoop packet len n (pos + 1 + byteAt packet pos)
        (acc ++ byteAt packet pos :: labelSlice packet (pos + 1) (byteAt packet pos))
        (if cw then wire + 1 + byteAt packet pos else wire) cw pc := by
  simp only [decompressLoop, if_pos h1, if_neg h2, if_neg h3, if_neg h4, if_neg h5,
    if_neg h6]

end StepLemmas

/-- Loop invariant: starting from an output position of at most 255, the
loop never writes past index 255 (so at most 256 bytes in total), stores
`*out_len` exactly on the success paths — where it equals the number of
bytes written and is at most 256 — and leaves `*out_len` unwritten on
every error path. -/
lemma decompressLoop_inv (packet : List Nat) (len : Nat) :
    ∀ fuel pos acc wire cw pc r, acc.length ≤ 255 →
      decompressLoop packet len fuel pos acc wire cw pc = some r →
      r.written.length ≤ 256 ∧
      (∀ e, r.res = .err e → r.out_len = none) ∧
      (∀ w, r.res = .ok w → r.out_len = some r.written.length ∧ r.written.length ≤ 256) := by
  intro fuel
  induction fuel with
  | zero => intro pos acc wire cw pc r ha heq; simp [decompressLoop] at heq
  | succ n ih =>
    intro pos acc wire cw pc r ha heq
    by_cases h1 : pos < len
    · by_cases h2 : byteAt packet pos &&& 192 = 192
      · by_cases h3 : pos + 1 ≥ len
        · rw [loop_ptr_short h1 h2 h3] at heq
          injection heq with heq; subst heq
          exact ⟨by simpa using by omega, fun e he => rfl, fun w hw => by simp at hw⟩
        · by_cases h4 : pc + 1 > 127
          · rw [loop_ptr_loop h1 h2 h3 h4] at heq
            injection heq with heq; subst heq
            exact ⟨by simpa using by omega, fun e he => rfl, fun w hw => by simp at hw⟩
          · by_cases h5 : ptrVal packet pos ≥ pos
            · rw [loop_ptr_invalid h1 h2 h3 h4 h5] at heq
              injection heq with heq; subst heq
              exact ⟨by simpa using by omega, fun e he => rfl, fun w hw => by simp at hw⟩
            · rw [loop_ptr_step h1 h2 h3 h4 h5] at heq
              exact ih _ _ _ _ _ _ ha heq
      · by_cases h3 : byteAt packet pos = 0
        · rw [loop_term h1 h2 h3] at heq
          injection heq with heq; subst heq
          refine ⟨by simp; omega, fun e he => by simp at he, fun w hw => ?_⟩
          simp only [NameResult.out_len, NameResult.written, List.length_append,
            List.length_cons, List.length_nil]
          exact ⟨by congr 1; omega, by omega⟩
        · by_cases h4 : byteAt packet pos > 63
          · rw [loop_name_err h1 h2 h3 h4] at heq
            injection heq with heq; subst heq
            exact ⟨by simpa using by omega, fun e he => rfl, fun w hw => by simp at hw⟩
          · by_cases h5 : pos + 1 + byteAt packet pos > len
            · rw [loop_label_short h1 h2 h3 h4 h5] at heq
              injection heq with heq; subst heq
              exact ⟨by simpa using by omega, fun e he => rfl, fun w hw => by simp at hw⟩
            · by_cases h6 : acc.length + 1 + byteAt packet pos > 255
              · rw [loop_overflow h1 h2 h3 h4 h5 h6] at heq
                injection heq with heq; subst heq
                exact ⟨by simpa using by omega, fun e he => rfl, fun w hw => by simp at hw⟩
              · rw [loop_label_step h1 h2 h3 h4 h5 h6] at heq
                refine ih _ _ _ _ _ _ ?_ heq
                simp only [List.length_append, List.length_cons, labelSlice_length]
                omega
    · rw [loop_exit h1] at heq
      injection heq with heq; subst heq
      refine ⟨by simpa using by omega, fun e he => by simp at he, fun w hw => ?_⟩
      simp only [NameResult.out_len, NameResult.written]
      exact ⟨by congr 1; omega, by omega⟩

/-- C1: for every packet buffer, length and starting offset,
`dnsasm_decompress_name` terminates — the loop's iteration count is
uniformly bounded (every followed pointer strictly decreases the cursor
or fails, the hop counter is capped at 127, and label steps strictly
grow the capped output), so the fuel of 384 is never exhausted on any
input, adversarial or not. -/
theorem decompress_name_terminates (packet : List Nat) (len offset : Nat) :
    (dnsasm_decompress_name packet len offset).isSome :=
  decompressLoop_isSome packet len 384 offset [] 0 true 0 (by simp)

/-- C10: on every input `dnsasm_decompress_name` writes only to output
indices strictly below 256 (the caller must supply
`DNS_MAX_NAME_LEN + 1 = 256` bytes), and whenever it stores `*out_len`
the stored value equals the number of bytes written and is at most 256:
every label copy is guarded by the 255-byte overflow check, so the
position never exceeds 255 before the terminating zero is appended at an
index of at most 255. -/
theorem decompress_writes_bounded (packet : List Nat) (len offset : Nat)
    (r : NameResult) (h : dnsasm_decompress_name packet len offset = some r) :
    r.written.length ≤ 256 ∧
    (∀ v, r.out_len = some v → v = r.written.length ∧ v ≤ 256) := by
  obtain ⟨hw, herr, hok⟩ :=
    decompressLoop_inv packet len 384 offset [] 0 true 0 r (by simp) h
  refine ⟨hw, fun v hv => ?_⟩
  cases hres : r.res with
  | err e => rw [herr e hres] at hv; cases hv
  | ok w =>
    obtain ⟨ho, hb⟩ := hok w hres
    rw [ho] at hv
    injection hv with hv
    omega

theorem decompress_writes_bounded_witness :
    dnsasm_decompress_name [0] 1 0 = some ⟨[0], some 1, .ok 1⟩ ∧
    1 = (⟨[0], some 1, .ok 1⟩ : NameResult).written.length ∧ 1 ≤ 256 :=
  ⟨by decide,
   (decompress_writes_bounded [0] 1 0 ⟨[0], some 1, .ok 1⟩ (by decide)).2 1 rfl⟩

/-- C2 (code-bug evidence): when the cursor reaches the end of the
buffer before a terminator, pointer or error — including `offset ≥ len`
— the `while (pos < len)` guard simply exits the loop and the function
falls through to the success epilogue, returning `DNSASM_OK` with
whatever partial output accumulated (and no terminating zero byte),
instead of the `DNSASM_ERR_SHORT` the specification requires for a read
with no byte available. -/
theorem decompress_truncated_returns_ok :
    dnsasm_decompress_name [] 0 0 = some ⟨[], some 0, .ok 0⟩ ∧
    dnsasm_decompress_name [1, 119] 2 0 = some ⟨[1, 119], some 2, .ok 2⟩ :=
  ⟨by decide, by decide⟩

/-- C3 (code-bug evidence): for a name whose labels fill exactly 255
output bytes, the overflow check `out_pos + 1 + label_len > 255` passes
(it does not account for the final terminator), and the unguarded
terminator store then makes the function succeed with `out_len = 256` —
one byte more than the documented 255-byte maximum that is stated to
include the null terminator (`DNS_MAX_NAME_LEN`). -/
theorem decompress_out_len_256 :
    overlongPacket.length = 256 ∧
    dnsasm_decompress_name overlongPacket 256 0 =
      some ⟨overlongPacket, some 256, .ok 256⟩ :=
  ⟨by decide, by decide⟩

/-- C7: for all 16-bit field values, `dnsasm_build_header` produces
exactly the 12 big-endian bytes `id, flags, qd, an, ns, ar`, and
`dnsasm_parse_header` on those 12 bytes recovers the six fields together
with the derived sub-flags (bit 15 = QR, bits 11–14 = opcode,
bit 10 = AA, bit 9 = TC, bit 8 = RD, bit 7 = RA, bits 0–3 = RCODE). -/
theorem header_roundtrip (id flags qd an ns ar : Nat)
    (hid : id < 65536) (hfl : flags < 65536) (hqd : qd < 65536)
    (han : an < 65536) (hns : ns < 65536) (har : ar < 65536) :
    (dnsasm_build_header id flags qd an ns ar).length = 12 ∧
    dnsasm_parse_header (dnsasm_build_header id flags qd an ns ar) 12 =
      some ⟨id, flags, qd, an, ns, ar,
        (flags >>> 15) &&& 1, (flags >>> 11) &&& 15, (flags >>> 10) &&& 1,
        (flags >>> 9) &&& 1, (flags >>> 8) &&& 1, (flags >>> 7) &&& 1,
        flags &&& 15⟩ := by
  constructor
  · simp [dnsasm_build_header]
  · have h0 : be16 (dnsasm_build_header id flags qd an ns ar) 0 = id := by
      simp [be16, byteAt, dnsasm_build_header, List.getD]; omega
    have h2 : be16 (dnsasm_build_header id flags qd an ns ar) 2 = flags := by
      simp [be16, byteAt, dnsasm_build_header, List.getD]; omega
    have h4 : be16 (dnsasm_build_header id flags qd an ns ar) 4 = qd := by
      simp [be16, byteAt, dnsasm_build_header, List.getD]; omega
    have h6 : be16 (dnsasm_build_header id flags qd an ns ar) 6 = an := by
      simp [be16, byteAt, dnsasm_build_header, List.getD]; omega
    have h8 : be16 (dnsasm_build_header id flags qd an ns ar) 8 = ns := by
      simp [be16, byteAt, dnsasm_build_header, List.getD]; omega
    have h10 : be16 (dnsasm_build_header id flags qd an ns ar) 10 = ar := by
      simp [be16, byteAt, dnsasm_build_header, List.getD]; omega
    simp only [dnsasm_parse_header, h0, h2, h4, h6, h8, h10]
    norm_num

theorem header_roundtrip_witness :
    (dnsasm_build_header 4660 33152 1 2 3 4).length = 12 ∧
    dnsasm_parse_header (dnsasm_build_header 4660 33152 1 2 3 4) 12 =
      some ⟨4660, 33152, 1, 2, 3, 4, 1, 0, 0, 0, 1, 1, 0⟩ := by
  have h := header_roundtrip 4660 33152 1 2 3 4 (by decide) (by decide)
    (by decide) (by decide) (by decide) (by decide)
  exact ⟨h.1, by rw [h.2]; decide⟩

/-- The comparison loop on equal-length lists returns 0 exactly when the
case-folded bytes agree at every position. -/
lemma nameEqLoop_eq_zero_iff : ∀ (a b : List Nat), a.length = b.length →
    (nameEqLoop a b = 0 ↔
      ∀ i, i < a.length → foldCase (a.getD i 0) = foldCase (b.getD i 0)) := by
  intro a
  induction a with
  | nil => intro b h; simp [nameEqLoop]
  | cons x xs ih =>
    intro b h
    cases b with
    | nil => simp at h
    | cons y ys =>
      simp only [List.length_cons] at h
      have hlen : xs.length = ys.length := by omega
      by_cases hxy : foldCase x = foldCase y
      · rw [show nameEqLoop (x :: xs) (y :: ys) = nameEqLoop xs ys from by
          simp [nameEqLoop, hxy]]
        rw [ih ys hlen]
        constructor
        · intro hall i hi
          match i with
          | 0 => simpa using hxy
          | i + 1 =>
            simpa using hall i (by simpa using hi)
        · intro hall i hi
          simpa using hall (i + 1) (by simp; omega)
      · rw [show nameEqLoop (x :: xs) (y :: ys) = 1 from by simp [nameEqLoop, hxy]]
        constructor
        · intro h1; exact absurd h1 one_ne_zero
        · intro hall
          exact absurd (by simpa using hall 0 (by simp)) hxy

/-- C8: `dnsasm_name_equal` reports not-equal whenever the lengths
differ; for equal lengths it reports equal iff the bytes agree at every
position after mapping `A`–`Z` to lowercase with all other bytes
(including label-length bytes) compared exactly; `WWW` equals `www`,
while a non-letter byte difference is not equal. -/
theorem name_equal_spec :
    (∀ a b : List Nat, a.length ≠ b.length → dnsasm_name_equal a b = 1) ∧
    (∀ a b : List Nat, a.length = b.length →
      (dnsasm_name_equal a b = 0 ↔
        ∀ i, i < a.length → foldCase (a.getD i 0) = foldCase (b.getD i 0))) ∧
    dnsasm_name_equal [3, 87, 87, 87] [3, 119, 119, 119] = 0 ∧
    dnsasm_name_equal [3, 119, 119, 119] [4, 119, 119, 119] = 1 := by
  refine ⟨fun a b h => by simp [dnsasm_name_equal, h], fun a b h => ?_, by decide, by decide⟩
  rw [show dnsasm_name_equal a b = nameEqLoop a b from by simp [dnsasm_name_equal, h]]
  exact nameEqLoop_eq_zero_iff a b h

theorem name_equal_spec_witness :
    dnsasm_name_equal [87] [] = 1 ∧ dnsasm_name_equal [87] [119] = 0 :=
  ⟨name_equal_spec.1 [87] [] (by decide),
   (name_equal_spec.2.1 [87] [119] (by decide)).mpr (by decide)⟩

lemma chainPacket_length (n : Nat) : (chainPacket n).length = 2 * n + 1 := by
  induction n with
  | zero => rfl
  | succ n ih => simp [chainPacket, ih]; omega

lemma chainPacket_byte0 (n : Nat) : byteAt (chainPacket n) 0 = 0 := by
  induction n with
  | zero => rfl
  | succ n ih =>
    simp only [chainPacket, byteAt] at *
    rw [List.getD_append _ _ _ _ (by rw [chainPacket_length]; omega)]
    exact ih

lemma chainPacket_hi (n : Nat) : ∀ k, 1 ≤ k → k ≤ n →
    byteAt (chainPacket n) (2 * k - 1) = 192 := by
  induction n with
  | zero => intro k h1 h2; omega
  | succ n ih =>
    intro k h1 h2
    by_cases hk : k ≤ n
    · simp only [chainPacket, byteAt] at *
      rw [List.getD_append _ _ _ _ (by rw [chainPacket_length]; omega)]
      exact ih k h1 hk
    · have hk2 : k = n + 1 := by omega
      subst hk2
      simp only [chainPacket, byteAt]
      rw [List.getD_append_right _ _ _ _ (by rw [chainPacket_length]; omega)]
      have hz : 2 * (n + 1) - 1 - (chainPacket n).length = 0 := by
        rw [chainPacket_length]; omega
      rw [hz]
      rfl

lemma chainPacket_lo (n : Nat) : ∀ k, 1 ≤ k → k ≤ n →
    byteAt (chainPacket n) (2 * k) = 2 * k - 3 := by
  induction n with
  | zero => intro k h1 h2; omega
  | succ n ih =>
    intro k h1 h2
    by_cases hk : k ≤ n
    · simp only [chainPacket, byteAt] at *
      rw [List.getD_append _ _ _ _ (by rw [chainPacket_length]; omega)]
      exact ih k h1 hk
    · have hk2 : k = n + 1 := by omega
      subst hk2
      simp only [chainPacket, byteAt]
      rw [List.getD_append_right _ _ _ _ (by rw [chainPacket_length]; omega)]
      have hz : 2 * (n + 1) - (chainPacket n).length = 1 := by
        rw [chainPacket_length]; omega
      rw [hz]
      by_cases hn : n = 0
      · subst hn; rfl
      · simp only [List.getD, hn, if_neg hn]
        have : (2 : Nat) * (n + 1) - 3 = 2 * n - 1 := by omega
        simp [this, hn]

/-- Running the decompressor at pointer `j + 1` of `chainPacket 127`
follows `j + 1` backward hops and then terminates on the root label. -/
lemma chain_run : ∀ j, j ≤ 126 → ∀ fuel acc wire cw pc,
    pc + (j + 1) ≤ 127 → j + 2 ≤ fuel →
    decompressLoop (chainPacket 127) 255 fuel (2 * j + 1) acc wire cw pc =
      some ⟨acc ++ [0], some ((acc.length + 1) % 65536),
        .ok ((if cw then wire + 2 else wire) % 4294967296)⟩ := by
  intro j
  induction j with
  | zero =>
    intro _ fuel acc wire cw pc hpc hfuel
    obtain ⟨f1, rfl⟩ : ∃ f1, fuel = f1 + 1 + 1 := ⟨fuel - 2, by omega⟩
    have hb1 : byteAt (chainPacket 127) 1 = 192 := by
      have := chainPacket_hi 127 1 (by omega) (by omega); simpa using this
    have hb2 : byteAt (chainPacket 127) 2 = 0 := by
      have := chainPacket_lo 127 1 (by omega) (by omega); simpa using this
    have hptr : ptrVal (chainPacket 127) 1 = 0 := by
      simp only [ptrVal]
      rw [show (1 : Nat) + 1 = 2 from rfl, hb1, hb2]
      decide
    rw [show 2 * 0 + 1 = 1 from rfl]
    rw [loop_ptr_step (by omega) (by rw [hb1]; decide) (by omega) (by omega) (by rw [hptr]; omega)]
    rw [hptr]
    rw [loop_term (by omega) (by rw [chainPacket_byte0]; decide) (chainPacket_byte0 127)]
    simp
  | succ j ih =>
    intro hj fuel acc wire cw pc hpc hfuel
    obtain ⟨f1, rfl⟩ : ∃ f1, fuel = f1 + 1 := ⟨fuel - 1, by omega⟩
    have hb1 : byteAt (chainPacket 127) (2 * (j + 1) + 1) = 192 := by
      have := chainPacket_hi 127 (j + 2) (by omega) (by omega)
      have hidx : 2 * (j + 2) - 1 = 2 * (j + 1) + 1 := by omega
      rwa [hidx] at this
    have hb2 : byteAt (chainPacket 127) (2 * (j + 1) + 1 + 1) = 2 * j + 1 := by
      have := chainPacket_lo 127 (j + 2) (by omega) (by omega)
      have hidx : 2 * (j + 2) = 2 * (j + 1) + 1 + 1 := by omega
      have hval : 2 * (j + 2) - 3 = 2 * j + 1 := by omega
      rwa [hval, hidx] at this
    have hptr : ptrVal (chainPacket 127) (2 * (j + 1) + 1) = 2 * j + 1 := by
      simp only [ptrVal]
      rw [hb1, hb2]
      rw [show (192 &&& 63) <<< 8 = 0 from rfl]
      exact Nat.zero_or _
    rw [loop_ptr_step (by omega) (by rw [hb1]; decide) (by omega) (by omega)
      (by rw [hptr]; omega)]
    rw [hptr]
    rw [ih (by omega) f1 acc (if cw then wire + 2 else wire) false (pc + 1)
      (by omega) (by omega)]
    simp

/-- C5: a chain of `N ≤ 127` backward pointer hops (each hop otherwise
valid) succeeds; `chainPacket 128` forces a 128th hop and fails with
`DNSASM_ERR_LOOP`; and any compression pointer whose 14-bit target is
not strictly below its own position fails with `DNSASM_ERR_POINTER`. -/
theorem pointer_chain_spec :
    ((chainPacket 127).length = 255 ∧
      ∀ N, 1 ≤ N → N ≤ 127 →
        dnsasm_decompress_name (chainPacket 127) 255 (2 * N - 1) =
          some ⟨[0], some 1, .ok 2⟩) ∧
    ((chainPacket 128).length = 257 ∧
      dnsasm_decompress_name (chainPacket 128) 257 255 =
        some ⟨[], none, .err .loop⟩) ∧
    (∀ packet len offset, offset + 1 < len →
      byteAt packet offset &&& 192 = 192 → ptrVal packet offset ≥ offset →
      dnsasm_decompress_name packet len offset =
        some ⟨[], none, .err .pointer⟩) := by
  refine ⟨⟨by simpa using chainPacket_length 127, fun N h1 h2 => ?_⟩,
    ⟨by simpa using chainPacket_length 128, by decide⟩,
    fun packet len offset hlt hbits hfwd => ?_⟩
  · have hidx : 2 * N - 1 = 2 * (N - 1) + 1 := by omega
    rw [dnsasm_decompress_name, hidx]
    have h := chain_run (N - 1) (by omega) 384 [] 0 true 0 (by omega) (by omega)
    simpa using h
  · rw [dnsasm_decompress_name, show (384 : Nat) = 383 + 1 from rfl,
      loop_ptr_invalid (by omega) hbits (by omega) (by omega) hfwd]

theorem pointer_chain_spec_witness :
    dnsasm_decompress_name (chainPacket 127) 255 9 = some ⟨[0], some 1, .ok 2⟩ ∧
    dnsasm_decompress_name [192, 0] 2 0 = some ⟨[], none, .err .pointer⟩ :=
  ⟨by simpa using pointer_chain_spec.1.2 5 (by decide) (by decide),
   pointer_chain_spec.2.2 [192, 0] 2 0 (by decide) (by decide) (by decide)⟩

/-- A value of at most 63 has no bits in common with `0xC0`. -/
lemma land192_eq_zero {m : Nat} (h : m ≤ 63) : m &&& 192 = 0 := by
  have hall : ∀ n, n < 64 → n &&& 192 = 0 := by decide
  exact hall m (by omega)

lemma nameBytes_length (ls : List (List Nat)) :
    (nameBytes ls).length = encLen ls := by
  induction ls with
  | nil => rfl
  | cons l ls ih => simp [nameBytes, encLen] at *; omega

lemma length_le_encLen (ls : List (List Nat)) : ls.length ≤ encLen ls := by
  induction ls with
  | nil => simp [encLen]
  | cons l ls ih => simp [encLen] at *; omega

lemma nameBytes_cons (l : List Nat) (ls : List (List Nat)) :
    nameBytes (l :: ls) = (l.length :: l) ++ nameBytes ls := by
  simp [nameBytes]

lemma encLen_cons (l : List Nat) (ls : List (List Nat)) :
    encLen (l :: ls) = 1 + l.length + encLen ls := by
  simp [encLen]

/-- Processing a block of plain labels: the loop copies each label's
length byte and bytes to the output, advances the cursor by the encoded
length, and (when counting is live) adds the encoded length to the wire
count. -/
lemma labels_steps (packet : List Nat) (len : Nat) :
    ∀ (ls : List (List Nat)) (pos : Nat) (acc : List Nat) (wire : Nat)
      (cw : Bool) (pc fuel : Nat),
    encodesLabels packet len pos ls →
    acc.length + encLen ls ≤ 255 →
    decompressLoop packet len (ls.length + fuel) pos acc wire cw pc =
      decompressLoop packet len fuel (pos + encLen ls) (acc ++ nameBytes ls)
        (if cw then wire + encLen ls else wire) cw pc := by
  intro ls
  induction ls with
  | nil =>
    intro pos acc wire cw pc fuel henc hcap
    simp [encLen, nameBytes]
  | cons l ls ih =>
    intro pos acc wire cw pc fuel henc hcap
    obtain ⟨hl1, hl63, hbyte, hbound, hslice, henc'⟩ := henc
    have hcap' : acc.length + (1 + l.length + encLen ls) ≤ 255 := by
      rw [encLen_cons] at hcap; exact hcap
    have hf : (l :: ls).length + fuel = (ls.length + fuel) + 1 := by
      simp; omega
    rw [hf]
    rw [loop_label_step (by omega) (by rw [hbyte, land192_eq_zero hl63]; decide)
      (by rw [hbyte]; omega) (by rw [hbyte]; omega) (by rw [hbyte]; omega)
      (by rw [hbyte]; omega)]
    rw [hbyte, hslice]
    rw [ih (pos + 1 + l.length) (acc ++ l.length :: l)
      (if cw then wire + 1 + l.length else wire) cw pc fuel henc'
      (by simp; omega)]
    have e1 : pos + 1 + l.length + encLen ls = pos + encLen (l :: ls) := by
      rw [encLen_cons]; omega
    have e2 : (acc ++ l.length :: l) ++ nameBytes ls = acc ++ nameBytes (l :: ls) := by
      rw [nameBytes_cons, List.append_assoc]
    have e3 : (if cw then (if cw then wire + 1 + l.length else wire) + encLen ls
        else (if cw then wire + 1 + l.length else wire)) =
        (if cw then wire + encLen (l :: ls) else wire) := by
      cases cw <;> (simp [encLen_cons]; try omega)
    rw [e1, e2, e3]

/-- C4: a name made of plain labels `ls1` followed by a single
compression pointer to an earlier position `t` that holds a plain
(pointer-free) name `ls2` decompresses to the concatenation of `ls1`
with the name at `t` (labels `ls2` plus the terminator), and the
consumed-byte count is exactly the label bytes plus the 2-byte pointer —
wire counting freezes at the pointer, so no byte at or after the target
is counted. -/
theorem single_pointer_concat (packet : List Nat) (len offset t : Nat)
    (ls1 ls2 : List (List Nat))
    (henc1 : encodesLabels packet len offset ls1)
    (hp : offset + encLen ls1 + 1 < len)
    (hhi : byteAt packet (offset + encLen ls1) &&& 192 = 192)
    (hptr : ptrVal packet (offset + encLen ls1) = t)
    (hback : t < offset + encLen ls1)
    (henc2 : encodesLabels packet len t ls2)
    (hterm : byteAt packet (t + encLen ls2) = 0)
    (htlen : t + encLen ls2 < len)
    (hcap : encLen ls1 + encLen ls2 ≤ 255) :
    dnsasm_decompress_name packet len t =
      some ⟨nameBytes ls2 ++ [0], some (encLen ls2 + 1), .ok (encLen ls2 + 1)⟩ ∧
    dnsasm_decompress_name packet len offset =
      some ⟨nameBytes ls1 ++ (nameBytes ls2 ++ [0]),
        some (encLen ls1 + encLen ls2 + 1), .ok (encLen ls1 + 2)⟩ := by
  have hlen1 : ls1.length ≤ encLen ls1 := length_le_encLen ls1
  have hlen2 : ls2.length ≤ encLen ls2 := length_le_encLen ls2
  constructor
  · -- the name at the pointer target on its own
    rw [dnsasm_decompress_name,
      show (384 : Nat) = ls2.length + (384 - ls2.length) from by omega,
      labels_steps packet len ls2 t [] 0 true 0 (384 - ls2.length) henc2
        (by simp; omega)]
    obtain ⟨f1, hf1⟩ : ∃ f1, 384 - ls2.length = f1 + 1 :=
      ⟨384 - ls2.length - 1, by omega⟩
    rw [hf1, loop_term htlen (by rw [hterm]; decide) hterm]
    simp only [List.nil_append, if_true, List.length_nil, Nat.zero_add]
    rw [nameBytes_length]
    rw [Nat.mod_eq_of_lt (by omega), Nat.mod_eq_of_lt (by omega)]
  · -- labels, then the pointer, then the target name
    rw [dnsasm_decompress_name,
      show (384 : Nat) = ls1.length + (384 - ls1.length) from by omega,
      labels_steps packet len ls1 offset [] 0 true 0 (384 - ls1.length) henc1
        (by simp; omega)]
    obtain ⟨f2, hf2⟩ : ∃ f2, 384 - ls1.length = f2 + 1 :=
      ⟨384 - ls1.length - 1, by omega⟩
    rw [hf2, loop_ptr_step (by omega) hhi (by omega) (by decide)
      (by rw [hptr]; omega)]
    rw [hptr]
    rw [show f2 = ls2.length + (f2 - ls2.length) from by omega,
      labels_steps packet len ls2 t ([] ++ nameBytes ls1)
        (if true then (if true then 0 + encLen ls1 else 0) + 2
          else (if true then 0 + encLen ls1 else 0)) false 1
        (f2 - ls2.length) henc2 (by simp [nameBytes_length]; omega)]
    obtain ⟨f3, hf3⟩ : ∃ f3, f2 - ls2.length = f3 + 1 :=
      ⟨f2 - ls2.length - 1, by omega⟩
    rw [hf3, loop_term htlen (by rw [hterm]; decide) hterm]
    simp only [List.nil_append, if_true, Bool.false_eq_true, if_false,
      List.length_append, nameBytes_length, Nat.zero_add, List.append_assoc]
    rw [Nat.mod_eq_of_lt (by omega), Nat.mod_eq_of_lt (by omega)]

theorem single_pointer_concat_witness :
    dnsasm_decompress_name [1, 97, 0, 1, 98, 192, 0] 7 0 =
      some ⟨[1, 97, 0], some 3, .ok 3⟩ ∧
    dnsasm_decompress_name [1, 97, 0, 1, 98, 192, 0] 7 3 =
      some ⟨[1, 98, 1, 97, 0], some 5, .ok 4⟩ := by
  have h := single_pointer_concat [1, 97, 0, 1, 98, 192, 0] 7 3 0 [[98]] [[97]]
    ⟨by decide, by decide, by decide, by decide, by decide, trivial⟩
    (by decide) (by decide) (by decide) (by decide)
    ⟨by decide, by decide, by decide, by decide, by decide, trivial⟩
    (by decide) (by decide) (by decide)
  exact ⟨h.1.trans (by decide), h.2.trans (by decide)⟩

/-- C6 (amended): `dnsasm_parse_rr` decodes the name via the
decompression engine (propagating its errors unchanged), fails with
`DNSASM_ERR_SHORT` unless 10 more bytes exist beyond the name's consumed
length, reads type/class/ttl/rdlength big-endian, fails with
`DNSASM_ERR_SHORT` unless `rdlength` further bytes exist, and on success
borrows the rdata view at the position just past those 10 bytes; the
16-bit `wire_len` field equals name bytes + 10 + rdlength exactly
whenever the buffer length is at most 65535 (the DNS maximum packet
size; for longer buffers the field wraps modulo 2^16). -/
theorem parse_rr_spec (packet : List Nat) (len offset : Nat) (r0 : RRT)
    (hlen : len ≤ 65535) (nr : NameResult)
    (hname : dnsasm_decompress_name packet len offset = some nr) :
    (∀ e, nr.res = .err e →
      dnsasm_parse_rr packet len offset r0 =
        some ({ r0 with name := writeBytes r0.name nr.written,
                        name_len := nr.out_len.getD r0.name_len }, .err e)) ∧
    (∀ w, nr.res = .ok w →
      (offset + w + 10 > len →
        dnsasm_parse_rr packet len offset r0 =
          some ({ r0 with name := writeBytes r0.name nr.written,
                          name_len := nr.out_len.getD r0.name_len }, .err .short)) ∧
      (offset + w + 10 ≤ len →
        offset + w + 10 + be16 packet (offset + w + 8) > len →
        dnsasm_parse_rr packet len offset r0 =
          some ({ r0 with name := writeBytes r0.name nr.written,
                          name_len := nr.out_len.getD r0.name_len,
                          rtype := be16 packet (offset + w),
                          rclass := be16 packet (offset + w + 2),
                          ttl := be32 packet (offset + w + 4),
                          rdlength := be16 packet (offset + w + 8) }, .err .short)) ∧
      (offset + w + 10 + be16 packet (offset + w + 8) ≤ len →
        dnsasm_parse_rr packet len offset r0 =
          some ({ r0 with name := writeBytes r0.name nr.written,
                          name_len := nr.out_len.getD r0.name_len,
                          rtype := be16 packet (offset + w),
                          rclass := be16 packet (offset + w + 2),
                          ttl := be32 packet (offset + w + 4),
                          rdlength := be16 packet (offset + w + 8),
                          rdata_off := offset + w + 10,
                          wire_len := w + 10 + be16 packet (offset + w + 8) },
            .ok (offset + w + 10 + be16 packet (offset + w + 8))))) := by
  obtain ⟨wr, ol, res⟩ := nr
  constructor
  · intro e he
    cases he
    simp [dnsasm_parse_rr, hname]
  · intro w hw
    cases hw
    refine ⟨fun hshort => ?_, fun hfit hshort2 => ?_, fun hfit2 => ?_⟩
    · simp [dnsasm_parse_rr, hname, if_pos hshort]
    · simp only [dnsasm_parse_rr, hname, Option.getD_some]
      rw [if_neg (by omega)]
      rw [if_pos (by simpa using hshort2)]
    · simp only [dnsasm_parse_rr, hname, Option.getD_some]
      rw [if_neg (by omega)]
      rw [if_neg (by simpa using by omega)]
      have hmod1 : (w + 10 + be16 packet (offset + w + 8)) % 65536 =
          w + 10 + be16 packet (offset + w + 8) :=
        Nat.mod_eq_of_lt (by omega)
      have hmod2 : (offset + w + 10 + be16 packet (offset + w + 8)) % 4294967296 =
          offset + w + 10 + be16 packet (offset + w + 8) :=
        Nat.mod_eq_of_lt (by omega)
      rw [hmod1, hmod2]

theorem parse_rr_spec_witness :
    dnsasm_parse_rr [0, 0, 1, 0, 1, 0, 0, 1, 44, 0, 4, 93, 184, 216, 34] 15 0 zeroRR =
      some (⟨0 :: List.replicate 255 0, 1, 1, 1, 300, 4, 11, 15⟩, .ok 15) := by
  have h := (parse_rr_spec [0, 0, 1, 0, 1, 0, 0, 1, 44, 0, 4, 93, 184, 216, 34]
    15 0 zeroRR (by decide) ⟨[0], some 1, .ok 1⟩ (by decide)).2 1 rfl
  exact (h.2.2 (by decide)).trans (by decide)

/-- C6 (counterexample to the claim as stated): on a 65546-byte buffer
whose record totals 1 (name) + 10 + 65535 (rdata) wire bytes, the
16-bit `wire_len` field stores 65546 mod 2^16 = 10, not
name bytes + 10 + rdlength = 65546. -/
theorem rr_wire_len_wraps :
    hugePacket.length = 65546 ∧
    dnsasm_parse_rr hugePacket 65546 0 zeroRR =
      some (⟨0 :: List.replicate 255 0, 1, 1, 1, 0, 65535, 11, 10⟩, .ok 65546) ∧
    (10 : Nat) ≠ 1 + 10 + 65535 := by
  refine ⟨?_, by decide, by decide⟩
  rw [hugePacket, List.length_append, List.length_replicate]
  decide

/-- C9 (amended): a failing decode never reports success and never
writes the fields that mark its output valid — the name decompressor
leaves `*out_len` unwritten on every error, the question decoder leaves
`qtype`/`qclass`/`wire_len` unwritten on every error, and the RR decoder
leaves `rdata` and `wire_len` unwritten on every error (while partially
decompressed name bytes, a `name_len` stored by an inner succeeded name
decode, and RR fixed fields stored before the rdata length check may
remain). -/
theorem failing_decode_writes_no_validity (packet : List Nat) (len offset : Nat) :
    (∀ nr e, dnsasm_decompress_name packet len offset = some nr →
      nr.res = .err e → nr.out_len = none) ∧
    (∀ (q q' : QuestionT) (e : DnsError),
      dnsasm_parse_question packet len offset q = some (q', .err e) →
      q'.qtype = q.qtype ∧ q'.qclass = q.qclass ∧ q'.wire_len = q.wire_len) ∧
    (∀ (r r' : RRT) (e : DnsError),
      dnsasm_parse_rr packet len offset r = some (r', .err e) →
      r'.rdata_off = r.rdata_off ∧ r'.wire_len = r.wire_len) := by
  refine ⟨fun nr e hnr he => ?_, fun q q' e hq => ?_, fun r r' e hr => ?_⟩
  · exact (decompressLoop_inv packet len 384 offset [] 0 true 0 nr
      (by simp) hnr).2.1 e he
  · cases hd : dnsasm_decompress_name packet len offset with
    | none => simp [dnsasm_parse_question, hd] at hq
    | some nr =>
      obtain ⟨wr, ol, res⟩ := nr
      cases res with
      | err e2 =>
        simp only [dnsasm_parse_question, hd, Option.some.injEq, Prod.mk.injEq] at hq
        obtain ⟨hq1, hq2⟩ := hq
        subst hq1
        simp
      | ok w =>
        by_cases hc : offset + w + 4 > len
        · simp only [dnsasm_parse_question, hd, if_pos hc, Option.some.injEq,
            Prod.mk.injEq] at hq
          obtain ⟨hq1, hq2⟩ := hq
          subst hq1
          simp
        · simp only [dnsasm_parse_question, hd, if_neg hc, Option.some.injEq,
            Prod.mk.injEq] at hq
          exact absurd hq.2 (by simp)
  · cases hd : dnsasm_decompress_name packet len offset with
    | none => simp [dnsasm_parse_rr, hd] at hr
    | some nr =>
      obtain ⟨wr, ol, res⟩ := nr
      cases res with
      | err e2 =>
        simp only [dnsasm_parse_rr, hd, Option.some.injEq, Prod.mk.injEq] at hr
        obtain ⟨hr1, hr2⟩ := hr
        subst hr1
        simp
      | ok w =>
        simp only [dnsasm_parse_rr, hd] at hr
        split_ifs at hr with hA hB
        · simp only [Option.some.injEq, Prod.mk.injEq] at hr
          obtain ⟨hr1, hr2⟩ := hr
          subst hr1
          simp
        · simp only [Option.some.injEq, Prod.mk.injEq] at hr
          obtain ⟨hr1, hr2⟩ := hr
          subst hr1
          simp
        · simp at hr

theorem failing_decode_writes_no_validity_witness :
    dnsasm_parse_question [] 0 0 zeroQuestion = some (zeroQuestion, .err .short) ∧
    (zeroQuestion.qtype = zeroQuestion.qtype ∧
      zeroQuestion.qclass = zeroQuestion.qclass ∧
      zeroQuestion.wire_len = zeroQuestion.wire_len) ∧
    dnsasm_parse_rr [] 0 0 zeroRR = some (zeroRR, .err .short) ∧
    (zeroRR.rdata_off = zeroRR.rdata_off ∧ zeroRR.wire_len = zeroRR.wire_len) :=
  ⟨by decide,
   (failing_decode_writes_no_validity [] 0 0).2.1 zeroQuestion zeroQuestion
     .short (by decide),
   by decide,
   (failing_decode_writes_no_validity [] 0 0).2.2 zeroRR zeroRR .short (by decide)⟩

/-- C9 (counterexample to the claim as stated): a failing question
decode does modify the caller's output struct — on `[1, 65, 64]`
(label `A`, then an invalid length byte 64) the decode fails with
`DNSASM_ERR_NAME` but the first label has already been copied into the
name buffer, so the struct differs from its pre-call state. -/
theorem question_error_leaves_partial_name :
    dnsasm_parse_question [1, 65, 64] 3 0 zeroQuestion =
      some (partialQuestion, .err .name) ∧
    partialQuestion.name ≠ zeroQuestion.name :=
  ⟨by decide, by decide⟩
